import Mathlib

/-!
Verification of the caching core of Python.Trading.Tools
(`src/venantvr/tools/caching.py`).

The embedding models:
* the JSON-like data model handled by the text codec (`json.dump` / `json.load`),
  with numbers restricted to integers as in every value the repository stores;
* a serializer and deserializer for that data model (the codec), proved to
  round-trip;
* the durable template-keyed cache decorators `dynamic_cache_to_json` and
  `dynamic_cache_to_pickle` as state machines over an explicit filesystem;
* the fixed-path caches `cache_to_json` / `cache_to_pickle`;
* the count-based cache `cache_for_n_calls` with Python's floored-modulo
  semantics (`Int.fmod`) and its division-by-zero failure.
-/

namespace Caching

/-- The JSON-like data model of the text codec: numbers (integers, as in all
values the repository serializes), strings, booleans, null, ordered lists and
string-keyed maps.  Strings are lists of characters to keep the serializer
proofs structural. -/
inductive Json where
  | null : Json
  | bool (b : Bool) : Json
  | num (n : Int) : Json
  | str (s : List Char) : Json
  | arr (elems : List Json) : Json
  | obj (fields : List (List Char × Json)) : Json

/-! ### Serializer (`json.dump` with the default separators) -/

/-- Decimal digit character: code point 48 + d. -/
def digCh (d : Nat) : Char := Char.ofNat (48 + d)

/-- Lowercase hexadecimal digit character (48 + d for digits, 87 + d for
letters), as Python's json module emits. -/
def hexCh (d : Nat) : Char := Char.ofNat (if d ≤ 9 then 48 + d else 87 + d)

/-- Decimal digits of a natural number, most significant first. -/
def natChars (m : Nat) : List Char :=
  if m = 0 then ['0'] else (Nat.digits 10 m).reverse.map digCh

/-- Decimal rendering of an integer, as Python prints an int. -/
def intChars (n : Int) : List Char :=
  if n < 0 then '-' :: natChars n.natAbs else natChars n.natAbs

/-- Escape of one character inside a JSON string literal, following the escape
table of Python's json serializer (shortcuts for the common control
characters, a \u00xx escape for the remaining ones, other characters kept
literal). -/
def escCh (c : Char) : List Char :=
  if 32 ≤ c.toNat then
    if c = '"' || c = '\\' then ['\\', c] else [c]
  else if c = '\t' then ['\\', 't']
  else if c = '\n' then ['\\', 'n']
  else if c = '\r' then ['\\', 'r']
  else if c = '\x0c' then ['\\', 'f']
  else if c = '\x08' then ['\\', 'b']
  else
    let hi := hexCh (c.toNat / 16)
    let lo := hexCh (c.toNat % 16)
    '\\' :: 'u' :: '0' :: '0' :: [hi, lo]

/-- Body of a JSON string literal including the closing quote. -/
def escBody (s : List Char) : List Char := s.foldr (fun c acc => escCh c ++ acc) ['"']

/-- A JSON string literal. -/
def printStrLit (s : List Char) : List Char := '"' :: escBody s

mutual

/-- Serialization of a value, mirroring `json.dump` with the default
separators (", " between items, ": " after keys). -/
def printVal : Json → List Char
  | .null => "null".toList
  | .bool true => "true".toList
  | .bool false => "false".toList
  | .num n => intChars n
  | .str s => printStrLit s
  | .arr [] => ['[', ']']
  | .arr (v :: vs) => '[' :: (printVal v ++ printElemsTail vs)
  | .obj [] => ['\x7b', '\x7d']
  | .obj ((k, v) :: fs) =>
      '\x7b' :: (printStrLit k ++ ':' :: ' ' :: (printVal v ++ printFieldsTail fs))

/-- Remaining elements of an array, after the first one. -/
def printElemsTail : List Json → List Char
  | [] => [']']
  | v :: vs => ',' :: ' ' :: (printVal v ++ printElemsTail vs)

/-- Remaining fields of an object, after the first one. -/
def printFieldsTail : List (List Char × Json) → List Char
  | [] => ['\x7d']
  | (k, v) :: fs => ',' :: ' ' :: (printStrLit k ++ ':' :: ' ' :: (printVal v ++ printFieldsTail fs))

end

/-! ### Deserializer (`json.load`) -/

/-- JSON insignificant whitespace. -/
def isSp (c : Char) : Bool := c = ' ' || c = '\n' || c = '\t' || c = '\r'

/-- Skip insignificant whitespace. -/
def skipSp : List Char → List Char
  | [] => []
  | c :: cs => if isSp c then skipSp cs else c :: cs

/-- Value of a decimal digit character, by code-point range. -/
def digVal (c : Char) : Option Nat :=
  if 48 ≤ c.toNat && c.toNat ≤ 57 then some (c.toNat - 48) else none

/-- Value of a hexadecimal digit character (either case, as json accepts), by
code-point range. -/
def hexVal (c : Char) : Option Nat :=
  if 48 ≤ c.toNat && c.toNat ≤ 57 then some (c.toNat - 48)
  else if 97 ≤ c.toNat && c.toNat ≤ 102 then some (c.toNat - 87)
  else if 65 ≤ c.toNat && c.toNat ≤ 70 then some (c.toNat - 55)
  else none

/-- Consume a run of decimal digits, accumulating their value. -/
def readDigits : List Char → Nat → Nat × List Char
  | [], acc => (acc, [])
  | c :: cs, acc =>
    match digVal c with
    | some d => readDigits cs (acc * 10 + d)
    | none => (acc, c :: cs)

/-- Parse the body of a JSON string literal (the opening quote already
consumed), returning the decoded characters and the input after the closing
quote.  The escapes accepted are those of the JSON grammar; a \u escape in
the surrogate range is rejected by this model. -/
def parseStrBody : List Char → Option (List Char × List Char)
  | [] => none
  | c :: cs =>
    if c = '"' then some ([], cs)
    else if c = '\\' then
      match cs with
      | [] => none
      | e :: cs2 =>
        if e = '"' then (parseStrBody cs2).map (fun p => ('"' :: p.1, p.2))
        else if e = '\\' then (parseStrBody cs2).map (fun p => ('\\' :: p.1, p.2))
        else if e = '/' then (parseStrBody cs2).map (fun p => ('/' :: p.1, p.2))
        else if e = 'n' then (parseStrBody cs2).map (fun p => ('\n' :: p.1, p.2))
        else if e = 't' then (parseStrBody cs2).map (fun p => ('\t' :: p.1, p.2))
        else if e = 'r' then (parseStrBody cs2).map (fun p => ('\r' :: p.1, p.2))
        else if e = 'b' then (parseStrBody cs2).map (fun p => ('\x08' :: p.1, p.2))
        else if e = 'f' then (parseStrBody cs2).map (fun p => ('\x0c' :: p.1, p.2))
        else if e = 'u' then
          match cs2 with
          | h1 :: h2 :: h3 :: h4 :: cs3 =>
            match hexVal h1, hexVal h2, hexVal h3, hexVal h4 with
            | some a, some b, some c2, some d =>
              let code := ((a * 16 + b) * 16 + c2) * 16 + d
              if code < 55296 then
                (parseStrBody cs3).map (fun p => (Char.ofNat code :: p.1, p.2))
              else none
            | _, _, _, _ => none
          | _ => none
        else none
    else (parseStrBody cs).map (fun p => (c :: p.1, p.2))

mutual

/-- Parse one JSON value.  The fuel argument bounds the nesting depth the
parser will follow; `parseJson` supplies enough for any input. -/
def parseVal : Nat → List Char → Option (Json × List Char)
  | 0, _ => none
  | fuel + 1, cs =>
    match skipSp cs with
    | [] => none
    | c :: cs2 =>
      match digVal c with
      | some d =>
        let p := readDigits cs2 d
        some (.num (p.1 : Int), p.2)
      | none =>
        if c = '-' then
          match cs2 with
          | c2 :: cs3 =>
            match digVal c2 with
            | some d =>
              let p := readDigits cs3 d
              some (.num (-(p.1 : Int)), p.2)
            | none => none
          | [] => none
        else if c = '"' then
          (parseStrBody cs2).map (fun p => (.str p.1, p.2))
        else if c = '[' then
          match skipSp cs2 with
          | [] => none
          | c2 :: cs3 =>
            if c2 = ']' then some (.arr [], cs3)
            else
              match parseVal fuel (c2 :: cs3) with
              | some (v, r2) =>
                match parseElemsTail fuel r2 with
                | some (vs, r3) => some (.arr (v :: vs), r3)
                | none => none
              | none => none
        else if c = '\x7b' then
          match skipSp cs2 with
          | [] => none
          | c2 :: cs3 =>
            if c2 = '\x7d' then some (.obj [], cs3)
            else if c2 = '"' then
              match parseStrBody cs3 with
              | some (k, r2) =>
                match skipSp r2 with
                | ':' :: r3 =>
                  match parseVal fuel r3 with
                  | some (v, r4) =>
                    match parseFieldsTail fuel r4 with
                    | some (fs, r5) => some (.obj ((k, v) :: fs), r5)
                    | none => none
                  | none => none
                | _ => none
              | none => none
            else none
        else if c = 'n' then
          match cs2 with
          | 'u' :: 'l' :: 'l' :: rest => some (.null, rest)
          | _ => none
        else if c = 't' then
          match cs2 with
          | 'r' :: 'u' :: 'e' :: rest => some (.bool true, rest)
          | _ => none
        else if c = 'f' then
          match cs2 with
          | 'a' :: 'l' :: 's' :: 'e' :: rest => some (.bool false, rest)
          | _ => none
        else none

/-- Parse the rest of an array after its first element: either the closing
bracket, or a comma followed by an element and the rest. -/
def parseElemsTail : Nat → List Char → Option (List Json × List Char)
  | 0, _ => none
  | fuel + 1, cs =>
    match skipSp cs with
    | [] => none
    | c :: cs2 =>
      if c = ']' then some ([], cs2)
      else if c = ',' then
        match parseVal fuel cs2 with
        | some (v, r2) =>
          match parseElemsTail fuel r2 with
          | some (vs, r3) => some (v :: vs, r3)
          | none => none
        | none => none
      else none

/-- Parse the rest of an object after its first field. -/
def parseFieldsTail : Nat → List Char → Option (List (List Char × Json) × List Char)
  | 0, _ => none
  | fuel + 1, cs =>
    match skipSp cs with
    | [] => none
    | c :: cs2 =>
      if c = '\x7d' then some ([], cs2)
      else if c = ',' then
        match skipSp cs2 with
        | '"' :: cs3 =>
          match parseStrBody cs3 with
          | some (k, r2) =>
            match skipSp r2 with
            | ':' :: r3 =>
              match parseVal fuel r3 with
              | some (v, r4) =>
                match parseFieldsTail fuel r4 with
                | some (fs, r5) => some ((k, v) :: fs, r5)
                | none => none
              | none => none
            | _ => none
          | none => none
        | _ => none
      else none

end

/-- Deserialization of a whole document, mirroring `json.load`: one value,
then only whitespace to the end of the file.  `none` models the
`json.JSONDecodeError` the source lets propagate. -/
def parseJson (cs : List Char) : Option Json :=
  match parseVal (cs.length + 1) cs with
  | some (v, rest) => if skipSp rest = [] then some v else none
  | none => none

/-- True when the input does not begin with a decimal digit, so a number parse
ending right before it is not extended. -/
def digBoundary : List Char → Bool
  | [] => true
  | c :: _ => (digVal c).isNone

mutual

/-- Fuel sufficient for `parseVal` to parse the serialization of a value. -/
def fuelOf : Json → Nat
  | .arr vs => 1 + elemsFuel vs
  | .obj fs => 1 + fieldsFuel fs
  | _ => 1

/-- Fuel sufficient for `parseElemsTail` on the serialized tail of an array. -/
def elemsFuel : List Json → Nat
  | [] => 1
  | v :: vs => fuelOf v + elemsFuel vs

/-- Fuel sufficient for `parseFieldsTail` on the serialized tail of an object. -/
def fieldsFuel : List (List Char × Json) → Nat
  | [] => 1
  | kv :: fs => fuelOf kv.2 + fieldsFuel fs

end

/-! ### Template resolver (`template_dir.format(**self.__dict__)`) -/

/-- One piece of a path template: literal text, or a named placeholder. -/
inductive TmplPiece where
  | lit (s : String) : TmplPiece
  | hole (key : String) : TmplPiece
  deriving DecidableEq

/-- The owner's attribute mapping (`self.__dict__`), snapshotted at call time.
The repository's templates interpolate string-valued attributes. -/
abbrev Attrs := List (String × String)

/-- `template_dir.format(**self.__dict__)`: substitute every placeholder from
the mapping; `none` models the `KeyError` raised when a placeholder has no
matching key. -/
def formatTmpl : List TmplPiece → Attrs → Option String
  | [], _ => some ""
  | .lit s :: rest, attrs => (formatTmpl rest attrs).map (fun t => s ++ t)
  | .hole k :: rest, attrs =>
    match attrs.lookup k with
    | some v => (formatTmpl rest attrs).map (fun t => v ++ t)
    | none => none

/-! ### Filesystem model

A cache file location is the pair (resolved directory, file name), written
`cache_dir / cache_filename` in the source.  The filesystem records the set
of directories that have been created and an association list from locations
to raw file contents. -/

/-- A file location: resolved cache directory and file name. -/
abbrev FPath := String × String

/-- Filesystem state for the text-codec caches: file contents are character
data as written by `json.dump`. -/
structure FS where
  dirs : List String
  files : List (FPath × List Char)

/-- Content of the file at a location (`open(path, 'r')` succeeding), or
`none` when the file does not exist (`os.path.exists` false /
`FileNotFoundError`). -/
def FS.read (fs : FS) (p : FPath) : Option (List Char) := fs.files.lookup p

/-- Write (or overwrite) the file at a location. -/
def FS.write (fs : FS) (p : FPath) (c : List Char) : FS := ⟨fs.dirs, (p, c) :: fs.files⟩

/-- `os.makedirs(cache_dir, exist_ok=True)`: idempotent creation of the
resolved directory (intermediate levels are elided by the model). -/
def FS.mkdirs (fs : FS) (d : String) : FS :=
  if d ∈ fs.dirs then fs else ⟨d :: fs.dirs, fs.files⟩

/-- Filesystem state for the binary-codec caches: `pickle.dump`/`pickle.load`
round-trip object graphs exactly, so files hold the stored value itself. -/
structure PFS (α : Type) where
  dirs : List String
  files : List (FPath × α)

/-- Content of a pickle cache file, or `none` when it does not exist. -/
def PFS.read {α : Type} (fs : PFS α) (p : FPath) : Option α := fs.files.lookup p

/-- Write (or overwrite) a pickle cache file. -/
def PFS.write {α : Type} (fs : PFS α) (p : FPath) (v : α) : PFS α := ⟨fs.dirs, (p, v) :: fs.files⟩

/-- Idempotent directory creation, binary-codec side. -/
def PFS.mkdirs {α : Type} (fs : PFS α) (d : String) : PFS α :=
  if d ∈ fs.dirs then fs else ⟨d :: fs.dirs, fs.files⟩

/-! ### Durable cache store (`dynamic_cache_to_json`, `dynamic_cache_to_pickle`) -/

/-- Observable outcome of one call to a durable-cache-wrapped operation. -/
inductive DynOutcome where
  /-- `template_dir.format` raised `KeyError`: a placeholder had no matching
  owner attribute.  Nothing else ran. -/
  | keyError : DynOutcome
  /-- The cache file existed: the wrapper returned `json.load` of it without
  invoking the operation; `none` models an uncaught decode error. -/
  | hit (decoded : Option Json) : DynOutcome
  /-- The cache file was absent: the operation was invoked; `none` models the
  operation raising. -/
  | miss (result : Option Json) : DynOutcome

/-- The cache file location `dynamic_cache_to_json` computes: resolved
directory plus `f"{func.__name__}.json"`.  It depends only on the template,
the owner's attributes and the operation's name — never on call arguments. -/
def dynJsonPath (templateDir : List TmplPiece) (attrs : Attrs) (funcName : String) :
    Option FPath :=
  (formatTmpl templateDir attrs).map (fun d => (d, funcName ++ ".json"))

/-- One call through the `dynamic_cache_to_json(template_dir)` wrapper, as a
state transformer on the filesystem.  `op` is the wrapped operation: from the
positional arguments to `some` result, or `none` when it raises. -/
def dynamicCacheToJson (templateDir : List TmplPiece) (funcName : String)
    (op : List Json → Option Json) (attrs : Attrs) (args : List Json)
    (fs : FS) : DynOutcome × FS :=
  match formatTmpl templateDir attrs with
  | none => (.keyError, fs)
  | some cacheDir =>
    let cachePath : FPath := (cacheDir, funcName ++ ".json")
    let fs1 := fs.mkdirs cacheDir
    match fs1.read cachePath with
    | some content => (.hit (parseJson content), fs1)
    | none =>
      match op args with
      | none => (.miss none, fs1)
      | some result => (.miss (some result), fs1.write cachePath (printVal result))

/-- Observable outcome of one call through the pickle-backed durable cache. -/
inductive PDynOutcome (α : Type) where
  | keyError : PDynOutcome α
  | hit (v : α) : PDynOutcome α
  | miss (result : Option α) : PDynOutcome α

/-- The cache file location `dynamic_cache_to_pickle` computes. -/
def dynPicklePath (templateDir : List TmplPiece) (attrs : Attrs) (funcName : String) :
    Option FPath :=
  (formatTmpl templateDir attrs).map (fun d => (d, funcName ++ ".pickle"))

/-- One call through the `dynamic_cache_to_pickle(template_dir)` wrapper. -/
def dynamicCacheToPickle {α : Type} (templateDir : List TmplPiece) (funcName : String)
    (op : List α → Option α) (attrs : Attrs) (args : List α)
    (fs : PFS α) : PDynOutcome α × PFS α :=
  match formatTmpl templateDir attrs with
  | none => (.keyError, fs)
  | some cacheDir =>
    let cachePath : FPath := (cacheDir, funcName ++ ".pickle")
    let fs1 := fs.mkdirs cacheDir
    match fs1.read cachePath with
    | some v => (.hit v, fs1)
    | none =>
      match op args with
      | none => (.miss none, fs1)
      | some result => (.miss (some result), fs1.write cachePath result)

/-! ### Fixed-path caches (`cache_to_json`, `cache_to_pickle`)

Their wrapped operations take no owner; successive calls are numbered and
`op k` is the result the underlying operation would produce on its k-th
invocation.  The returned `Bool` records whether the operation was invoked
(its side-effect counter). -/

/-- Python `is None` on a loaded JSON document: `json.load` returns the
Python value `None` exactly for the document `null`. -/
def Json.isNull : Json → Bool
  | .null => true
  | _ => false

/-- One call through `cache_to_json(path)`: try to load the file (a missing
file yields `cached_result = None`, and so does a stored `null`); serve a
non-`None` loaded value, otherwise invoke and rewrite.  `none` models an
uncaught `json.JSONDecodeError` on a corrupt file.  The source dumps with
`indent=2`, which differs from the compact serialization only in
insignificant whitespace that `parseJson` skips; the model stores the
compact form. -/
def cacheToJson (path : FPath) (op : Nat → Json) (k : Nat) (fs : FS) :
    Option (Json × Bool × FS) :=
  match fs.read path with
  | some content =>
    match parseJson content with
    | none => none
    | some cached =>
      if cached.isNull then
        let r := op k
        some (r, true, fs.write path (printVal r))
      else some (cached, false, fs)
  | none =>
    let r := op k
    some (r, true, fs.write path (printVal r))

/-- Run `m` successive calls through `cache_to_json`, starting at invocation
index `k`, and count how many of them invoked the underlying operation. -/
def runCacheToJson (path : FPath) (op : Nat → Json) :
    Nat → Nat → FS → Option (FS × Nat)
  | 0, _, fs => some (fs, 0)
  | m + 1, k, fs =>
    match cacheToJson path op k fs with
    | none => none
    | some (_, invoked, fs1) =>
      (runCacheToJson path op m (k + 1) fs1).map
        (fun p => (p.1, (if invoked then 1 else 0) + p.2))

/-- One call through `cache_to_pickle(path)`.  A pickle file stores an
arbitrary Python object, here `Option β` with `none` for Python `None`; the
`is not None` test is `Option.isSome`. -/
def cacheToPickle {β : Type} (path : FPath) (op : Nat → Option β) (k : Nat)
    (fs : PFS (Option β)) : Option β × Bool × PFS (Option β) :=
  match fs.read path with
  | some cached =>
    if cached.isSome then (cached, false, fs)
    else
      let r := op k
      (r, true, fs.write path r)
  | none =>
    let r := op k
    (r, true, fs.write path r)

/-- Run `m` successive calls through `cache_to_pickle`, counting invocations. -/
def runCacheToPickle {β : Type} (path : FPath) (op : Nat → Option β) :
    Nat → Nat → PFS (Option β) → PFS (Option β) × Nat
  | 0, _, fs => (fs, 0)
  | m + 1, k, fs =>
    let s := cacheToPickle path op k fs
    let p := runCacheToPickle path op m (k + 1) s.2.2
    (p.1, (if s.2.1 then 1 else 0) + p.2)

/-! ### Count-based memo cache (`cache_for_n_calls`) -/

/-- The closure state of one wrapped operation: `cached_result` (initially
Python `None`), `call_count` (initially 0), plus an instrumentation counter
of how many times the underlying operation has been invoked (the tests'
side-effect counter). -/
structure NCallsState (α : Type) where
  cachedResult : Option α
  callCount : Int
  invocations : Nat

/-- `cache_for_n_calls(n)` applied to an operation: the decorator only
allocates the closure state — it performs no validation of `n`. -/
def cacheForNCallsWrap (α : Type) (_n : Int) : NCallsState α := ⟨none, 0, 0⟩

/-- One call through the `cache_for_n_calls(n)` wrapper.  `op k` is the value
the underlying operation produces on its k-th invocation.  Python's `%` is
floored (`Int.fmod`); `call_count % 0` raises `ZeroDivisionError`, modelled
by `none`. -/
def cacheForNCallsStep {α : Type} (n : Int) (op : Nat → α) (s : NCallsState α) :
    Option (Option α × NCallsState α) :=
  if n = 0 then none
  else if s.callCount.fmod n ≠ 0 then
    some (s.cachedResult, ⟨s.cachedResult, s.callCount + 1, s.invocations⟩)
  else
    let r := op s.invocations
    some (some r, ⟨some r, 1, s.invocations + 1⟩)

/-- Run `m` successive calls through `cache_for_n_calls`, collecting the
returned values. -/
def runNCalls {α : Type} (n : Int) (op : Nat → α) :
    Nat → NCallsState α → Option (List (Option α) × NCallsState α)
  | 0, s => some ([], s)
  | m + 1, s =>
    match cacheForNCallsStep n op s with
    | none => none
    | some (v, s1) => (runNCalls n op m s1).map (fun p => (v :: p.1, p.2))

/-! ### Spec-modelled components

The repository's tests (`src/tests/test_caching.py`) exercise a Cache Entry
wrapper (`cached_data["value"]`) and a `cache_filename=` override that the
`caching.py` under `src/` does not implement; the spec documents both. -/

/-- The field name of the Cache Entry wrapper, as characters. -/
def valueKey : List Char := ['v', 'a', 'l', 'u', 'e']

/-- Modelled from the spec: the Cache Entry container `{ value: T }` wrapping
the raw result before serialization (spec §3, §4.2); absent from
`src/venantvr/tools/caching.py`, asserted by `src/tests/test_caching.py`. -/
def wrapEntry (v : Json) : Json := .obj [(valueKey, v)]

/-- Modelled from the spec: unwrapping the Cache Entry on decode. -/
def unwrapEntry : Json → Option Json
  | .obj [(k, v)] => if k = valueKey then some v else none
  | _ => none

/-- Modelled from the spec: the text codec's decode step over a Cache Entry
document — `json.load` then unwrap. -/
def decodeEntry (cs : List Char) : Option Json := (parseJson cs).bind unwrapEntry

/-- True for a JSON document consisting of a single object with exactly one
field named `value` (the stored-file schema the spec and the tests claim). -/
def isValueWrapper : Json → Bool
  | .obj [(k, _)] => k = valueKey
  | _ => false

/-- Modelled from the spec: the Durable Cache Store's filename computation,
`filenameOverride` if given, else `"{operation.identifier}.{codec.extension}"`
(spec §4.3 step 3); the `src/` wrappers implement only the default branch. -/
def memoizeFilename (filenameOverride : Option String) (opName ext : String) : String :=
  match filenameOverride with
  | some f => f
  | none => opName ++ "." ++ ext

/-! ### The stored-file-schema scenario of `test_dynamic_cache_to_json_basic_functionality` -/

/-- The result returned by the test's wrapped operation:
`{"price": 100, "symbol": "BTC"}`. -/
def c3Result : Json :=
  .obj [(['p', 'r', 'i', 'c', 'e'], .num 100), (['s', 'y', 'm', 'b', 'o', 'l'], .str ['B', 'T', 'C'])]

/-- The test's path template `f"{self.temp_dir}/{{exchange_name}}/"`, with
`tmp` for the temporary directory. -/
def c3Tmpl : List TmplPiece := [.lit "tmp/", .hole "exchange_name", .lit "/"]

/-- The test owner's attribute snapshot: `exchange_name = "binance"`. -/
def c3Attrs : Attrs := [("exchange_name", "binance")]

/-- The first (populating) call of the test scenario, from an empty
filesystem. -/
def c3Run : DynOutcome × FS :=
  dynamicCacheToJson c3Tmpl "get_data" (fun _ => some c3Result) c3Attrs [] ⟨[], []⟩

/-! ## Codec round-trip lemmas -/

theorem skipSp_cons (c : Char) (cs : List Char) (h : isSp c = false) :
    skipSp (c :: cs) = c :: cs := by
  simp [skipSp, h]

theorem digVal_digCh (d : Nat) (h : d < 10) : digVal (digCh d) = some d := by
  interval_cases d <;> decide

theorem hexVal_hexCh (d : Nat) (h : d < 16) : hexVal (hexCh d) = some d := by
  interval_cases d <;> decide

theorem foldr_ofDigits (l : List Nat) :
    l.foldr (fun d a => a * 10 + d) 0 = Nat.ofDigits 10 l := by
  induction l with
  | nil => simp [Nat.ofDigits]
  | cons d l ih =>
    simp only [List.foldr_cons, Nat.ofDigits_cons, ih]
    ring

theorem natChars_spec (m : Nat) :
    ∃ (d : Nat) (ds : List Nat), natChars m = digCh d :: ds.map digCh ∧ d < 10 ∧ (∀ x ∈ ds, x < 10) ∧
      ds.foldl (fun a x => a * 10 + x) d = m := by
  by_cases hm : m = 0
  · subst hm
    exact ⟨0, [], by decide, by decide, by simp, by simp⟩
  · have hnil : Nat.digits 10 m ≠ [] := Nat.digits_ne_nil_iff_ne_zero.mpr hm
    have hrev : (Nat.digits 10 m).reverse ≠ [] := by
      simpa using hnil
    obtain ⟨d, ds, hds⟩ := List.exists_cons_of_ne_nil hrev
    have hmem : ∀ x ∈ d :: ds, x < 10 := by
      intro x hx
      have hx2 : x ∈ Nat.digits 10 m := by
        rw [← List.mem_reverse, hds]
        exact hx
      exact Nat.digits_lt_base (by norm_num) hx2
    refine ⟨d, ds, ?_, hmem d (List.mem_cons_self d ds), ?_, ?_⟩
    · simp [natChars, hm, hds]
    · intro x hx
      exact hmem x (List.mem_cons_of_mem d hx)
    · have h0 : ds.foldl (fun a x => a * 10 + x) d
          = (Nat.digits 10 m).reverse.foldl (fun a x => a * 10 + x) 0 := by
        rw [hds, List.foldl_cons]
        norm_num
      rw [h0, List.foldl_reverse]
      have h1 : (Nat.digits 10 m).foldr (fun x y => y * 10 + x) 0
          = (Nat.digits 10 m).foldr (fun d a => a * 10 + d) 0 := rfl
      rw [h1, foldr_ofDigits, Nat.ofDigits_digits]

theorem readDigits_stop (cs : List Char) (acc : Nat) (h : digBoundary cs = true) :
    readDigits cs acc = (acc, cs) := by
  cases cs with
  | nil => rfl
  | cons c cs =>
    have hc : digVal c = none := by
      simpa [digBoundary, Option.isNone_iff_eq_none] using h
    rw [readDigits.eq_def]
    simp [hc]

theorem readDigits_run (ds : List Nat) (rest : List Char) (acc : Nat)
    (h : ∀ x ∈ ds, x < 10) (hb : digBoundary rest = true) :
    readDigits (ds.map digCh ++ rest) acc = (ds.foldl (fun a x => a * 10 + x) acc, rest) := by
  induction ds generalizing acc with
  | nil => simpa using readDigits_stop rest acc hb
  | cons d ds ih =>
    have hd : d < 10 := h d (List.mem_cons_self d ds)
    have step : readDigits (digCh d :: (ds.map digCh ++ rest)) acc
        = readDigits (ds.map digCh ++ rest) (acc * 10 + d) := by
      rw [readDigits.eq_def]
      simp [digVal_digCh d hd]
    simp only [List.map_cons, List.cons_append, step, List.foldl_cons]
    exact ih (acc * 10 + d) (fun x hx => h x (List.mem_cons_of_mem d hx))

theorem parseStrBody_u (t : Nat) (h32 : t < 32) (tail : List Char) :
    parseStrBody ('\\' :: 'u' :: '0' :: '0' :: hexCh (t / 16) :: hexCh (t % 16) :: tail)
      = (parseStrBody tail).map (fun p => (Char.ofNat t :: p.1, p.2)) := by
  have hdiv : t / 16 < 16 := by omega
  have hmod : t % 16 < 16 := by omega
  rw [parseStrBody.eq_def]
  simp only [hexVal_hexCh _ hdiv, hexVal_hexCh _ hmod]
  simp [hexVal]
  rw [show t / 16 * 16 + t % 16 = t from by omega, if_pos (show t < 55296 by omega)]

theorem parseStrBody_escBody (s rest : List Char) :
    parseStrBody (escBody s ++ rest) = some (s, rest) := by
  induction s with
  | nil =>
    show parseStrBody ('"' :: rest) = some ([], rest)
    rw [parseStrBody.eq_def]
    simp
  | cons c cs ih =>
    have hsplit : escBody (c :: cs) ++ rest = escCh c ++ (escBody cs ++ rest) := by
      simp [escBody, List.append_assoc]
    rw [hsplit]
    by_cases h1 : c = '"'
    · subst h1
      rw [show escCh '"' = ['\\', '"'] from rfl, List.cons_append, List.cons_append,
        List.nil_append, parseStrBody.eq_def]
      simp [ih]
    · by_cases h2 : c = '\\'
      · subst h2
        rw [show escCh '\\' = ['\\', '\\'] from rfl, List.cons_append, List.cons_append,
          List.nil_append, parseStrBody.eq_def]
        simp [ih]
      · by_cases h3 : c = '\n'
        · subst h3
          rw [show escCh '\n' = ['\\', 'n'] from rfl, List.cons_append, List.cons_append,
            List.nil_append, parseStrBody.eq_def]
          simp [ih]
        · by_cases h4 : c = '\t'
          · subst h4
            rw [show escCh '\t' = ['\\', 't'] from rfl, List.cons_append, List.cons_append,
              List.nil_append, parseStrBody.eq_def]
            simp [ih]
          · by_cases h5 : c = '\r'
            · subst h5
              rw [show escCh '\r' = ['\\', 'r'] from rfl, List.cons_append, List.cons_append,
                List.nil_append, parseStrBody.eq_def]
              simp [ih]
            · by_cases h6 : c = '\x08'
              · subst h6
                rw [show escCh '\x08' = ['\\', 'b'] from rfl, List.cons_append, List.cons_append,
                  List.nil_append, parseStrBody.eq_def]
                simp [ih]
              · by_cases h7 : c = '\x0c'
                · subst h7
                  rw [show escCh '\x0c' = ['\\', 'f'] from rfl, List.cons_append,
                    List.cons_append, List.nil_append, parseStrBody.eq_def]
                  simp [ih]
                · by_cases h8 : c.toNat < 32
                  · have hesc : escCh c = ['\\', 'u', '0', '0', hexCh (c.toNat / 16),
                        hexCh (c.toNat % 16)] := by
                      simp [escCh, h1, h2, h3, h4, h5, h6, h7, h8]
                    rw [hesc]
                    simp only [List.cons_append, List.nil_append]
                    rw [parseStrBody_u c.toNat h8 (escBody cs ++ rest), ih]
                    simp [Char.ofNat_toNat]
                  · have hesc : escCh c = [c] := by
                      simp [escCh, h1, h2, h3, h4, h5, h6, h7, h8]
                    rw [hesc]
                    simp only [List.cons_append, List.nil_append]
                    rw [parseStrBody.eq_def]
                    simp [h1, h2, ih]

theorem printVal_head (v : Json) :
    ∃ c t, printVal v = c :: t ∧ isSp c = false ∧ c ≠ ']' := by
  cases v with
  | null =>
    refine ⟨'n', ['u', 'l', 'l'], ?_, by decide, by decide⟩
    rw [printVal.eq_def]
    rfl
  | bool b =>
    cases b with
    | true =>
      refine ⟨'t', ['r', 'u', 'e'], ?_, by decide, by decide⟩
      rw [printVal.eq_def]
      rfl
    | false =>
      refine ⟨'f', ['a', 'l', 's', 'e'], ?_, by decide, by decide⟩
      rw [printVal.eq_def]
      rfl
  | num n =>
    by_cases hn : n < 0
    · refine ⟨'-', natChars n.natAbs, ?_, by decide, by decide⟩
      rw [printVal.eq_def]
      simp [intChars, hn]
    · obtain ⟨d, ds, hd, hlt, _, _⟩ := natChars_spec n.natAbs
      refine ⟨digCh d, ds.map digCh, ?_, ?_, ?_⟩
      · rw [printVal.eq_def]
        simp [intChars, hn, hd]
      · interval_cases d <;> decide
      · interval_cases d <;> decide
  | str s =>
    refine ⟨'"', escBody s, ?_, by decide, by decide⟩
    rw [printVal.eq_def]
    simp [printStrLit]
  | arr vs =>
    cases vs with
    | nil => exact ⟨'[', _, by rw [printVal.eq_def], by decide, by decide⟩
    | cons v vs => exact ⟨'[', _, by rw [printVal.eq_def], by decide, by decide⟩
  | obj fs =>
    cases fs with
    | nil => exact ⟨'\x7b', _, by rw [printVal.eq_def], by decide, by decide⟩
    | cons kv fs =>
      obtain ⟨k, v⟩ := kv
      exact ⟨'\x7b', _, by rw [printVal.eq_def], by decide, by decide⟩

theorem skipSp_printVal (v : Json) (r : List Char) :
    skipSp (printVal v ++ r) = printVal v ++ r := by
  obtain ⟨c, t, hv, hsp, hne⟩ := printVal_head v
  rw [hv]
  rw [List.cons_append]
  exact skipSp_cons c (t ++ r) hsp

theorem parseVal_sp (fuel : Nat) (x : List Char) :
    parseVal fuel (' ' :: x) = parseVal fuel x := by
  cases fuel with
  | zero => rw [parseVal.eq_def, parseVal.eq_def]
  | succ fuel =>
    have h : skipSp (' ' :: x) = skipSp x := by
      rw [skipSp.eq_def]
      simp [isSp]
    rw [parseVal.eq_def]
    rw [parseVal.eq_def]
    simp only [h]

theorem digBoundary_elems (vs : List Json) (r : List Char) :
    digBoundary (printElemsTail vs ++ r) = true := by
  cases vs with
  | nil =>
    rw [printElemsTail.eq_def]
    simp [digBoundary, digVal]
  | cons v vs =>
    rw [printElemsTail.eq_def]
    simp [digBoundary, digVal]

theorem digBoundary_fields (fs : List (List Char × Json)) (r : List Char) :
    digBoundary (printFieldsTail fs ++ r) = true := by
  cases fs with
  | nil =>
    rw [printFieldsTail.eq_def]
    simp [digBoundary, digVal]
  | cons kv fs =>
    obtain ⟨k, v⟩ := kv
    rw [printFieldsTail.eq_def]
    simp [digBoundary, digVal]

theorem printVal_null : printVal .null = ['n', 'u', 'l', 'l'] := by
  rw [printVal.eq_def]
  rfl

theorem printVal_true : printVal (.bool true) = ['t', 'r', 'u', 'e'] := by
  rw [printVal.eq_def]
  rfl

theorem printVal_false : printVal (.bool false) = ['f', 'a', 'l', 's', 'e'] := by
  rw [printVal.eq_def]
  rfl

theorem printVal_num (n : Int) : printVal (.num n) = intChars n := by
  rw [printVal.eq_def]

theorem printVal_str (s : List Char) : printVal (.str s) = printStrLit s := by
  rw [printVal.eq_def]

theorem printVal_arr_nil : printVal (.arr []) = ['[', ']'] := by
  rw [printVal.eq_def]

theorem printVal_arr_cons (v : Json) (vs : List Json) :
    printVal (.arr (v :: vs)) = '[' :: (printVal v ++ printElemsTail vs) := by
  rw [printVal.eq_def]

theorem printVal_obj_nil : printVal (.obj []) = ['\x7b', '\x7d'] := by
  rw [printVal.eq_def]

theorem printVal_obj_cons (k : List Char) (v : Json) (fs : List (List Char × Json)) :
    printVal (.obj ((k, v) :: fs))
      = '\x7b' :: (printStrLit k ++ ':' :: ' ' :: (printVal v ++ printFieldsTail fs)) := by
  rw [printVal.eq_def]

theorem printElemsTail_nil : printElemsTail [] = [']'] := by
  rw [printElemsTail.eq_def]

theorem printElemsTail_cons (v : Json) (vs : List Json) :
    printElemsTail (v :: vs) = ',' :: ' ' :: (printVal v ++ printElemsTail vs) := by
  rw [printElemsTail.eq_def]

theorem printFieldsTail_nil : printFieldsTail [] = ['\x7d'] := by
  rw [printFieldsTail.eq_def]

theorem printFieldsTail_cons (k : List Char) (v : Json) (fs : List (List Char × Json)) :
    printFieldsTail ((k, v) :: fs)
      = ',' :: ' ' :: (printStrLit k ++ ':' :: ' ' :: (printVal v ++ printFieldsTail fs)) := by
  rw [printFieldsTail.eq_def]

theorem fuelOf_null : fuelOf .null = 1 := by
  rw [fuelOf.eq_def]

theorem fuelOf_bool (b : Bool) : fuelOf (.bool b) = 1 := by
  rw [fuelOf.eq_def]

theorem fuelOf_num (n : Int) : fuelOf (.num n) = 1 := by
  rw [fuelOf.eq_def]

theorem fuelOf_str (s : List Char) : fuelOf (.str s) = 1 := by
  rw [fuelOf.eq_def]

theorem fuelOf_arr (vs : List Json) : fuelOf (.arr vs) = 1 + elemsFuel vs := by
  rw [fuelOf.eq_def]

theorem fuelOf_obj (fs : List (List Char × Json)) : fuelOf (.obj fs) = 1 + fieldsFuel fs := by
  rw [fuelOf.eq_def]

theorem elemsFuel_nil : elemsFuel [] = 1 := by
  rw [elemsFuel.eq_def]

theorem elemsFuel_cons (v : Json) (vs : List Json) :
    elemsFuel (v :: vs) = fuelOf v + elemsFuel vs := by
  rw [elemsFuel.eq_def]

theorem fieldsFuel_nil : fieldsFuel [] = 1 := by
  rw [fieldsFuel.eq_def]

theorem fieldsFuel_cons (k : List Char) (v : Json) (fs : List (List Char × Json)) :
    fieldsFuel ((k, v) :: fs) = fuelOf v + fieldsFuel fs := by
  rw [fieldsFuel.eq_def]

theorem fuelOf_pos (v : Json) : 1 ≤ fuelOf v := by
  cases v with
  | null => rw [fuelOf_null]
  | bool b => rw [fuelOf_bool]
  | num n => rw [fuelOf_num]
  | str s => rw [fuelOf_str]
  | arr vs => rw [fuelOf_arr]; omega
  | obj fs => rw [fuelOf_obj]; omega

theorem elemsFuel_pos (vs : List Json) : 1 ≤ elemsFuel vs := by
  cases vs with
  | nil => rw [elemsFuel_nil]
  | cons v vs =>
    have h := fuelOf_pos v
    rw [elemsFuel_cons]
    omega

theorem fieldsFuel_pos (fs : List (List Char × Json)) : 1 ≤ fieldsFuel fs := by
  cases fs with
  | nil => rw [fieldsFuel_nil]
  | cons kv fs =>
    obtain ⟨k, v⟩ := kv
    have h := fuelOf_pos v
    rw [fieldsFuel_cons]
    omega

theorem digCh_not_sp (d : Nat) (h : d < 10) : isSp (digCh d) = false := by
  interval_cases d <;> decide

theorem parseRoundTrip (fuel : Nat) :
    (∀ v rest, fuelOf v ≤ fuel → digBoundary rest = true →
      parseVal fuel (printVal v ++ rest) = some (v, rest)) ∧
    (∀ vs rest, elemsFuel vs ≤ fuel →
      parseElemsTail fuel (printElemsTail vs ++ rest) = some (vs, rest)) ∧
    (∀ fs rest, fieldsFuel fs ≤ fuel →
      parseFieldsTail fuel (printFieldsTail fs ++ rest) = some (fs, rest)) := by
  induction fuel with
  | zero =>
    refine ⟨?_, ?_, ?_⟩
    · intro v rest h _
      have := fuelOf_pos v
      omega
    · intro vs rest h
      have := elemsFuel_pos vs
      omega
    · intro fs rest h
      have := fieldsFuel_pos fs
      omega
  | succ fuel ih =>
    obtain ⟨ihV, ihE, ihF⟩ := ih
    refine ⟨?_, ?_, ?_⟩
    · intro v rest hfuel hb
      cases v with
      | null =>
        rw [printVal_null, parseVal.eq_def]
        simp [skipSp, isSp, digVal]
      | bool b =>
        cases b with
        | true =>
          rw [printVal_true, parseVal.eq_def]
          simp [skipSp, isSp, digVal]
        | false =>
          rw [printVal_false, parseVal.eq_def]
          simp [skipSp, isSp, digVal]
      | str s =>
        rw [printVal_str, parseVal.eq_def]
        simp [printStrLit, skipSp, isSp, digVal, parseStrBody_escBody]
      | num n =>
        rcases natChars_spec n.natAbs with ⟨d, ds, hnc, hd10, hds10, hfold⟩
        rw [printVal_num]
        by_cases hn : n < 0
        · have hi : intChars n = '-' :: natChars n.natAbs := by
            simp [intChars, hn]
          rw [hi, hnc, parseVal.eq_def]
          have hdm : digVal '-' = none := by decide
          simp [skipSp, isSp, hdm, digVal_digCh d hd10,
            readDigits_run ds rest d hds10 hb, hfold]
          simp [abs_of_neg hn]
        · have hi : intChars n = natChars n.natAbs := by
            simp [intChars, hn]
          rw [hi, hnc, parseVal.eq_def]
          simp [skipSp_cons _ _ (digCh_not_sp d hd10), digVal_digCh d hd10,
            readDigits_run ds rest d hds10 hb, hfold]
          omega
      | arr vs =>
        cases vs with
        | nil =>
          rw [printVal_arr_nil, parseVal.eq_def]
          simp [skipSp, isSp, digVal]
        | cons v vs =>
          rw [fuelOf_arr, elemsFuel_cons] at hfuel
          have hp1 := fuelOf_pos v
          have hp2 := elemsFuel_pos vs
          obtain ⟨c, t, hvc, hsp, hne⟩ := printVal_head v
          have hIV : parseVal fuel (c :: (t ++ (printElemsTail vs ++ rest)))
              = some (v, printElemsTail vs ++ rest) := by
            rw [show c :: (t ++ (printElemsTail vs ++ rest))
                = printVal v ++ (printElemsTail vs ++ rest) from by rw [hvc]; rfl]
            exact ihV v _ (by omega) (digBoundary_elems vs rest)
          have hIE : parseElemsTail fuel (printElemsTail vs ++ rest) = some (vs, rest) :=
            ihE vs rest (by omega)
          rw [printVal_arr_cons, parseVal.eq_def, hvc]
          simp only [isSp, Bool.or_eq_false_iff, decide_eq_false_iff_not] at hsp
          simp [skipSp, isSp, digVal, hne, hIV, hIE, hsp]
      | obj fs =>
        cases fs with
        | nil =>
          rw [printVal_obj_nil, parseVal.eq_def]
          simp [skipSp, isSp, digVal]
        | cons kv fs =>
          obtain ⟨k, v⟩ := kv
          rw [fuelOf_obj, fieldsFuel_cons] at hfuel
          have hp1 := fuelOf_pos v
          have hp2 := fieldsFuel_pos fs
          have hIV : parseVal fuel (' ' :: (printVal v ++ (printFieldsTail fs ++ rest)))
              = some (v, printFieldsTail fs ++ rest) := by
            rw [parseVal_sp]
            exact ihV v _ (by omega) (digBoundary_fields fs rest)
          have hIF : parseFieldsTail fuel (printFieldsTail fs ++ rest) = some (fs, rest) :=
            ihF fs rest (by omega)
          have hK : parseStrBody (escBody k ++ (':' :: ' ' :: (printVal v ++ (printFieldsTail fs ++ rest))))
              = some (k, ':' :: ' ' :: (printVal v ++ (printFieldsTail fs ++ rest))) :=
            parseStrBody_escBody _ _
          rw [printVal_obj_cons, parseVal.eq_def]
          simp [printStrLit, skipSp, isSp, digVal, hK, hIV, hIF]
    · intro vs rest hfuel
      cases vs with
      | nil =>
        rw [printElemsTail_nil, parseElemsTail.eq_def]
        simp [skipSp, isSp]
      | cons v vs =>
        rw [elemsFuel_cons] at hfuel
        have hp1 := fuelOf_pos v
        have hp2 := elemsFuel_pos vs
        have hIV : parseVal fuel (' ' :: (printVal v ++ (printElemsTail vs ++ rest)))
            = some (v, printElemsTail vs ++ rest) := by
          rw [parseVal_sp]
          exact ihV v _ (by omega) (digBoundary_elems vs rest)
        have hIE : parseElemsTail fuel (printElemsTail vs ++ rest) = some (vs, rest) :=
          ihE vs rest (by omega)
        rw [printElemsTail_cons, parseElemsTail.eq_def]
        simp [skipSp, isSp, hIV, hIE]
    · intro fs rest hfuel
      cases fs with
      | nil =>
        rw [printFieldsTail_nil, parseFieldsTail.eq_def]
        simp [skipSp, isSp]
      | cons kv fs =>
        obtain ⟨k, v⟩ := kv
        rw [fieldsFuel_cons] at hfuel
        have hp1 := fuelOf_pos v
        have hp2 := fieldsFuel_pos fs
        have hIV : parseVal fuel (' ' :: (printVal v ++ (printFieldsTail fs ++ rest)))
            = some (v, printFieldsTail fs ++ rest) := by
          rw [parseVal_sp]
          exact ihV v _ (by omega) (digBoundary_fields fs rest)
        have hIF : parseFieldsTail fuel (printFieldsTail fs ++ rest) = some (fs, rest) :=
          ihF fs rest (by omega)
        have hK : parseStrBody (escBody k ++ (':' :: ' ' :: (printVal v ++ (printFieldsTail fs ++ rest))))
            = some (k, ':' :: ' ' :: (printVal v ++ (printFieldsTail fs ++ rest))) :=
          parseStrBody_escBody _ _
        rw [printFieldsTail_cons, parseFieldsTail.eq_def]
        simp [printStrLit, skipSp, isSp, hK, hIV, hIF]

mutual

theorem fuelOf_le_printVal (v : Json) : fuelOf v ≤ (printVal v).length + 1 := by
  cases v with
  | null => rw [fuelOf_null]; omega
  | bool b => rw [fuelOf_bool]; omega
  | num n => rw [fuelOf_num]; omega
  | str s => rw [fuelOf_str]; omega
  | arr vs =>
    cases vs with
    | nil =>
      rw [fuelOf_arr, elemsFuel_nil, printVal_arr_nil]
      simp
    | cons v vs =>
      have h1 := fuelOf_le_printVal v
      have h2 := elemsFuel_le_printElemsTail vs
      rw [fuelOf_arr, elemsFuel_cons, printVal_arr_cons]
      simp only [List.length_cons, List.length_append]
      omega
  | obj fs =>
    cases fs with
    | nil =>
      rw [fuelOf_obj, fieldsFuel_nil, printVal_obj_nil]
      simp
    | cons kv fs =>
      obtain ⟨k, v⟩ := kv
      have h1 := fuelOf_le_printVal v
      have h2 := fieldsFuel_le_printFieldsTail fs
      rw [fuelOf_obj, fieldsFuel_cons, printVal_obj_cons]
      simp only [List.length_cons, List.length_append]
      omega

theorem elemsFuel_le_printElemsTail (vs : List Json) :
    elemsFuel vs ≤ (printElemsTail vs).length := by
  cases vs with
  | nil =>
    rw [elemsFuel_nil, printElemsTail_nil]
    simp
  | cons v vs =>
    have h1 := fuelOf_le_printVal v
    have h2 := elemsFuel_le_printElemsTail vs
    rw [elemsFuel_cons, printElemsTail_cons]
    simp only [List.length_cons, List.length_append]
    omega

theorem fieldsFuel_le_printFieldsTail (fs : List (List Char × Json)) :
    fieldsFuel fs ≤ (printFieldsTail fs).length := by
  cases fs with
  | nil =>
    rw [fieldsFuel_nil, printFieldsTail_nil]
    simp
  | cons kv fs =>
    obtain ⟨k, v⟩ := kv
    have h1 := fuelOf_le_printVal v
    have h2 := fieldsFuel_le_printFieldsTail fs
    rw [fieldsFuel_cons, printFieldsTail_cons]
    simp only [List.length_cons, List.length_append]
    omega

end

theorem parseJson_printVal (v : Json) : parseJson (printVal v) = some v := by
  have h := (parseRoundTrip ((printVal v).length + 1)).1 v [] (fuelOf_le_printVal v) rfl
  rw [List.append_nil] at h
  simp [parseJson, h, skipSp]

/-! ## Filesystem lemmas -/

theorem FS.read_mkdirs (fs : FS) (d : String) (p : FPath) :
    (fs.mkdirs d).read p = fs.read p := by
  simp only [FS.mkdirs]
  split <;> rfl

theorem FS.files_mkdirs (fs : FS) (d : String) : (fs.mkdirs d).files = fs.files := by
  simp only [FS.mkdirs]
  split <;> rfl

theorem FS.read_write_self (fs : FS) (p : FPath) (c : List Char) :
    (fs.write p c).read p = some c := by
  simp [FS.write, FS.read, List.lookup]

theorem FS.mem_dirs_mkdirs (fs : FS) (d : String) : d ∈ (fs.mkdirs d).dirs := by
  simp only [FS.mkdirs]
  split
  case isTrue h => exact h
  case isFalse h => exact List.mem_cons_self d fs.dirs

theorem FS.mkdirs_of_mem (fs : FS) (d : String) (h : d ∈ fs.dirs) : fs.mkdirs d = fs := by
  simp [FS.mkdirs, h]

theorem FS.dirs_write (fs : FS) (p : FPath) (c : List Char) : (fs.write p c).dirs = fs.dirs := rfl

theorem pfs_read_mkdirs {α : Type} (fs : PFS α) (d : String) (p : FPath) :
    (PFS.mkdirs fs d).read p = fs.read p := by
  simp only [PFS.mkdirs]
  split <;> rfl

theorem pfs_files_mkdirs {α : Type} (fs : PFS α) (d : String) :
    (PFS.mkdirs fs d).files = fs.files := by
  simp only [PFS.mkdirs]
  split <;> rfl

theorem pfs_read_write_self {α : Type} (fs : PFS α) (p : FPath) (v : α) :
    (PFS.write fs p v).read p = some v := by
  simp [PFS.write, PFS.read, List.lookup]

theorem pfs_mem_dirs_mkdirs {α : Type} (fs : PFS α) (d : String) :
    d ∈ (PFS.mkdirs fs d).dirs := by
  simp only [PFS.mkdirs]
  split
  case isTrue h => exact h
  case isFalse h => exact List.mem_cons_self d fs.dirs

theorem pfs_mkdirs_of_mem {α : Type} (fs : PFS α) (d : String) (h : d ∈ fs.dirs) :
    PFS.mkdirs fs d = fs := by
  simp [PFS.mkdirs, h]

theorem pfs_dirs_write {α : Type} (fs : PFS α) (p : FPath) (v : α) :
    (PFS.write fs p v).dirs = fs.dirs := rfl

/-- A template containing a placeholder with no matching attribute fails to
resolve, as `str.format` raises `KeyError`. -/
theorem formatTmpl_none (tmpl : List TmplPiece) (attrs : Attrs) (k : String)
    (hmem : TmplPiece.hole k ∈ tmpl) (hk : attrs.lookup k = none) :
    formatTmpl tmpl attrs = none := by
  induction tmpl with
  | nil => cases hmem
  | cons p rest ih =>
    cases p with
    | lit s =>
      have hr : TmplPiece.hole k ∈ rest := by
        rcases List.mem_cons.mp hmem with h | h
        · cases h
        · exact h
      rw [formatTmpl.eq_def]
      simp [ih hr]
    | hole k2 =>
      by_cases hq : k2 = k
      · subst hq
        rw [formatTmpl.eq_def]
        simp [hk]
      · have hr : TmplPiece.hole k ∈ rest := by
          rcases List.mem_cons.mp hmem with h | h
          · cases h
            exact absurd rfl hq
          · exact h
        rw [formatTmpl.eq_def]
        cases hl : attrs.lookup k2 with
        | none => simp [hl]
        | some v => simp [hl, ih hr]

/-! ## Claim theorems -/

/-- Claim C2: for `cache_for_n_calls` with n = 3 from the initial state,
calls 1, 2 and 3 all return the result computed at call 1 with the underlying
operation invoked exactly once; call 4 invokes it a second time and returns
the new result; calls 5 and 6 return call-4's result with no further
invocation. -/
theorem cache_for_n_calls_three_cycle (α : Type) (op : Nat → α) :
    runNCalls 3 op 3 (cacheForNCallsWrap α 3)
      = some ([some (op 0), some (op 0), some (op 0)], ⟨some (op 0), 3, 1⟩) ∧
    runNCalls 3 op 6 (cacheForNCallsWrap α 3)
      = some ([some (op 0), some (op 0), some (op 0), some (op 1), some (op 1), some (op 1)],
          ⟨some (op 1), 3, 2⟩) :=
  ⟨rfl, rfl⟩

/-- Claim C4 (code bug in the source): `cache_for_n_calls` performs no
wrap-time validation of n.  With n = 0 the decorator still builds the wrapper
state and the first call fails with `ZeroDivisionError` (modelled by `none`);
with n = -1 no error is ever raised and every call recomputes. -/
theorem cache_for_n_calls_no_wrap_time_validation :
    cacheForNCallsWrap Json 0 = ⟨none, 0, 0⟩ ∧
    cacheForNCallsStep 0 (fun k => Json.num k) (cacheForNCallsWrap Json 0) = none ∧
    runNCalls (-1) (fun k => Json.num k) 2 (cacheForNCallsWrap Json (-1))
      = some ([some (.num 0), some (.num 1)], ⟨some (.num 1), 1, 2⟩) :=
  ⟨rfl, rfl, rfl⟩

/-- Claim C3 (code bug in the source): in the repository's own test scenario
(`test_dynamic_cache_to_json_basic_functionality`), the `src/` wrapper writes
the raw result to the cache file: the stored document decodes to the result
itself, which is not a single-field `value` object — contradicting the test's
`cached_data["value"]` assertion and the spec's stored-file schema. -/
theorem dynamic_cache_to_json_stores_raw_result :
    c3Run.1 = .miss (some c3Result) ∧
    c3Run.2.read ("tmp/binance/", "get_data.json") = some (printVal c3Result) ∧
    parseJson (printVal c3Result) = some c3Result ∧
    isValueWrapper c3Result = false :=
  ⟨rfl, rfl, parseJson_printVal c3Result, rfl⟩

/-- Claim C7: round-trip of the text codec — for every value of the JSON-like
data model, decoding the encoding of the Cache-Entry-wrapped value yields the
value again (wrap and unwrap modelled from the spec; serialization embeds
`json.dump` / `json.load`). -/
theorem cache_entry_codec_round_trip (v : Json) :
    decodeEntry (printVal (wrapEntry v)) = some v := by
  rw [decodeEntry, parseJson_printVal (wrapEntry v)]
  simp [wrapEntry, unwrapEntry]

/-- Claim C8: filename selection in the durable cache — an explicit filename
override is used verbatim; with no override the file name is the operation's
identifier followed by the codec extension, exactly the name the `src/`
wrappers compute (".json" for the text codec, ".pickle" for the binary
codec). -/
theorem memoize_filename_selection (f opName : String) (tmpl : List TmplPiece) (attrs : Attrs) :
    memoizeFilename (some f) opName "json" = f ∧
    memoizeFilename (some f) opName "pickle" = f ∧
    memoizeFilename none opName "json" = opName ++ ".json" ∧
    memoizeFilename none opName "pickle" = opName ++ ".pickle" ∧
    dynJsonPath tmpl attrs opName
      = (formatTmpl tmpl attrs).map (fun d => (d, memoizeFilename none opName "json")) ∧
    dynPicklePath tmpl attrs opName
      = (formatTmpl tmpl attrs).map (fun d => (d, memoizeFilename none opName "pickle")) := by
  have hj : memoizeFilename none opName "json" = opName ++ ".json" := by
    show (opName ++ ".") ++ "json" = opName ++ ".json"
    rw [String.append_assoc]
    rfl
  have hp : memoizeFilename none opName "pickle" = opName ++ ".pickle" := by
    show (opName ++ ".") ++ "pickle" = opName ++ ".pickle"
    rw [String.append_assoc]
    rfl
  refine ⟨rfl, rfl, hj, hp, ?_, ?_⟩
  · simp [dynJsonPath, hj]
  · simp [dynPicklePath, hp]

/-- Claim C1: whenever the computed cache file exists at call time, the
durable-cache wrapper does not invoke the operation and returns the value
decoded from the file; after a first populating call, a second call with the
same owner-attribute snapshot returns an identical value with no additional
invocation (for both the json and the pickle wrapper). -/
theorem dynamic_cache_hit_suppresses_invocation
    {α : Type}
    (tmpl : List TmplPiece) (fn : String) (attrs : Attrs) (d : String)
    (op : List Json → Option Json) (args : List Json) (fs : FS) (r : Json)
    (pop : List α → Option α) (pargs : List α) (pfs : PFS α) (pr : α)
    (hd : formatTmpl tmpl attrs = some d) :
    (∀ c, fs.read (d, fn ++ ".json") = some c →
      dynamicCacheToJson tmpl fn op attrs args fs = (.hit (parseJson c), fs.mkdirs d)) ∧
    (fs.read (d, fn ++ ".json") = none → op args = some r →
      dynamicCacheToJson tmpl fn op attrs args fs
        = (.miss (some r), (fs.mkdirs d).write (d, fn ++ ".json") (printVal r)) ∧
      dynamicCacheToJson tmpl fn op attrs args
          ((fs.mkdirs d).write (d, fn ++ ".json") (printVal r))
        = (.hit (some r), (fs.mkdirs d).write (d, fn ++ ".json") (printVal r))) ∧
    (∀ v, pfs.read (d, fn ++ ".pickle") = some v →
      dynamicCacheToPickle tmpl fn pop attrs pargs pfs = (.hit v, PFS.mkdirs pfs d)) ∧
    (pfs.read (d, fn ++ ".pickle") = none → pop pargs = some pr →
      dynamicCacheToPickle tmpl fn pop attrs pargs pfs
        = (.miss (some pr), PFS.write (PFS.mkdirs pfs d) (d, fn ++ ".pickle") pr) ∧
      dynamicCacheToPickle tmpl fn pop attrs pargs
          (PFS.write (PFS.mkdirs pfs d) (d, fn ++ ".pickle") pr)
        = (.hit pr, PFS.write (PFS.mkdirs pfs d) (d, fn ++ ".pickle") pr)) := by
  refine ⟨?_, ?_, ?_, ?_⟩
  · intro c hc
    simp [dynamicCacheToJson, hd, FS.read_mkdirs, hc]
  · intro hn hop
    have hmem : d ∈ ((fs.mkdirs d).write (d, fn ++ ".json") (printVal r)).dirs := by
      rw [FS.dirs_write]
      exact FS.mem_dirs_mkdirs fs d
    constructor
    · simp [dynamicCacheToJson, hd, FS.read_mkdirs, hn, hop]
    · simp [dynamicCacheToJson, hd, FS.mkdirs_of_mem _ _ hmem, FS.read_write_self,
        parseJson_printVal]
  · intro v hv
    simp [dynamicCacheToPickle, hd, pfs_read_mkdirs, hv]
  · intro pn hpop
    have hmem : d ∈ (PFS.write (PFS.mkdirs pfs d) (d, fn ++ ".pickle") pr).dirs := by
      rw [pfs_dirs_write]
      exact pfs_mem_dirs_mkdirs pfs d
    constructor
    · simp [dynamicCacheToPickle, hd, pfs_read_mkdirs, pn, hpop]
    · simp [dynamicCacheToPickle, hd, pfs_mkdirs_of_mem _ _ hmem, pfs_read_write_self]

theorem dynamic_cache_hit_suppresses_invocation_witness :
    dynamicCacheToJson [TmplPiece.hole "e"] "f" (fun _ => some (Json.num 1)) [("e", "x")] []
        (⟨[], []⟩ : FS)
      = (.miss (some (.num 1)),
          ((⟨[], []⟩ : FS).mkdirs "x").write ("x", "f.json") (printVal (.num 1))) ∧
    dynamicCacheToJson [TmplPiece.hole "e"] "f" (fun _ => some (Json.num 1)) [("e", "x")] []
        (((⟨[], []⟩ : FS).mkdirs "x").write ("x", "f.json") (printVal (.num 1)))
      = (.hit (some (.num 1)),
          ((⟨[], []⟩ : FS).mkdirs "x").write ("x", "f.json") (printVal (.num 1))) :=
  (dynamic_cache_hit_suppresses_invocation [TmplPiece.hole "e"] "f" [("e", "x")] "x"
    (fun _ => some (Json.num 1)) [] ⟨[], []⟩ (Json.num 1)
    (fun (_ : List Nat) => some 5) [] ⟨[], []⟩ 5 rfl).2.1 rfl rfl

/-- Claim C5: when the path template contains a placeholder with no matching
key in the owner's attribute mapping, the call fails with the resolution
error before any directory is created, before any file I/O, and without
invoking the wrapped operation: the filesystem is returned untouched. -/
theorem dynamic_cache_missing_attribute_fails_fast
    {α : Type} (tmpl : List TmplPiece) (fn : String) (attrs : Attrs) (k : String)
    (op : List Json → Option Json) (args : List Json) (fs : FS)
    (pop : List α → Option α) (pargs : List α) (pfs : PFS α)
    (hmem : TmplPiece.hole k ∈ tmpl) (hk : attrs.lookup k = none) :
    dynamicCacheToJson tmpl fn op attrs args fs = (.keyError, fs) ∧
    dynamicCacheToPickle tmpl fn pop attrs pargs pfs = (.keyError, pfs) := by
  have h := formatTmpl_none tmpl attrs k hmem hk
  constructor
  · simp [dynamicCacheToJson, h]
  · simp [dynamicCacheToPickle, h]

theorem dynamic_cache_missing_attribute_fails_fast_witness :
    dynamicCacheToJson [TmplPiece.hole "exchange_name"] "f" (fun _ => some (Json.num 1))
        [("other", "x")] [] (⟨[], []⟩ : FS) = (.keyError, ⟨[], []⟩) ∧
    dynamicCacheToPickle [TmplPiece.hole "exchange_name"] "f"
        (fun (_ : List Nat) => some 5) [("other", "x")] [] (⟨[], []⟩ : PFS Nat)
      = (.keyError, ⟨[], []⟩) :=
  dynamic_cache_missing_attribute_fails_fast [TmplPiece.hole "exchange_name"] "f"
    [("other", "x")] "exchange_name" (fun _ => some (Json.num 1)) [] ⟨[], []⟩
    (fun (_ : List Nat) => some 5) [] ⟨[], []⟩ (List.mem_cons_self _ _) rfl

/-- Claim C6: the durable cache key is independent of call arguments: the
computed path depends only on the template, the owner's attributes and the
operation's name, and once a call with arguments a1 has stored a result, a
subsequent call with any arguments a2 returns the same stored value without
invoking the operation. -/
theorem dynamic_cache_key_argument_independent
    {α : Type}
    (tmpl : List TmplPiece) (fn : String) (attrs : Attrs) (d : String)
    (op : List Json → Option Json) (a1 a2 : List Json) (fs : FS) (r : Json)
    (pop : List α → Option α) (p1 p2 : List α) (pfs : PFS α) (pr : α)
    (hd : formatTmpl tmpl attrs = some d) :
    dynJsonPath tmpl attrs fn = some (d, fn ++ ".json") ∧
    dynPicklePath tmpl attrs fn = some (d, fn ++ ".pickle") ∧
    (fs.read (d, fn ++ ".json") = none → op a1 = some r →
      (dynamicCacheToJson tmpl fn op attrs a1 fs).1 = .miss (some r) ∧
      dynamicCacheToJson tmpl fn op attrs a2 (dynamicCacheToJson tmpl fn op attrs a1 fs).2
        = (.hit (some r), (dynamicCacheToJson tmpl fn op attrs a1 fs).2)) ∧
    (pfs.read (d, fn ++ ".pickle") = none → pop p1 = some pr →
      (dynamicCacheToPickle tmpl fn pop attrs p1 pfs).1 = .miss (some pr) ∧
      dynamicCacheToPickle tmpl fn pop attrs p2 (dynamicCacheToPickle tmpl fn pop attrs p1 pfs).2
        = (.hit pr, (dynamicCacheToPickle tmpl fn pop attrs p1 pfs).2)) := by
  refine ⟨by simp [dynJsonPath, hd], by simp [dynPicklePath, hd], ?_, ?_⟩
  · intro hn hop
    have hfirst : dynamicCacheToJson tmpl fn op attrs a1 fs
        = (.miss (some r), (fs.mkdirs d).write (d, fn ++ ".json") (printVal r)) := by
      simp [dynamicCacheToJson, hd, FS.read_mkdirs, hn, hop]
    have hmem : d ∈ ((fs.mkdirs d).write (d, fn ++ ".json") (printVal r)).dirs := by
      rw [FS.dirs_write]
      exact FS.mem_dirs_mkdirs fs d
    rw [hfirst]
    refine ⟨rfl, ?_⟩
    simp [dynamicCacheToJson, hd, FS.mkdirs_of_mem _ _ hmem, FS.read_write_self,
      parseJson_printVal]
  · intro pn hpop
    have hfirst : dynamicCacheToPickle tmpl fn pop attrs p1 pfs
        = (.miss (some pr), PFS.write (PFS.mkdirs pfs d) (d, fn ++ ".pickle") pr) := by
      simp [dynamicCacheToPickle, hd, pfs_read_mkdirs, pn, hpop]
    have hmem : d ∈ (PFS.write (PFS.mkdirs pfs d) (d, fn ++ ".pickle") pr).dirs := by
      rw [pfs_dirs_write]
      exact pfs_mem_dirs_mkdirs pfs d
    rw [hfirst]
    refine ⟨rfl, ?_⟩
    simp [dynamicCacheToPickle, hd, pfs_mkdirs_of_mem _ _ hmem, pfs_read_write_self]

theorem dynamic_cache_key_argument_independent_witness :
    (dynamicCacheToJson [TmplPiece.hole "e"] "f" (fun a => some (.arr a)) [("e", "x")]
        [Json.num 1] (⟨[], []⟩ : FS)).1 = .miss (some (.arr [Json.num 1])) ∧
    dynamicCacheToJson [TmplPiece.hole "e"] "f" (fun a => some (.arr a)) [("e", "x")]
        [Json.num 2]
        (dynamicCacheToJson [TmplPiece.hole "e"] "f" (fun a => some (.arr a)) [("e", "x")]
          [Json.num 1] (⟨[], []⟩ : FS)).2
      = (.hit (some (.arr [Json.num 1])),
          (dynamicCacheToJson [TmplPiece.hole "e"] "f" (fun a => some (.arr a)) [("e", "x")]
            [Json.num 1] (⟨[], []⟩ : FS)).2) :=
  (dynamic_cache_key_argument_independent [TmplPiece.hole "e"] "f" [("e", "x")] "x"
    (fun a => some (.arr a)) [Json.num 1] [Json.num 2] ⟨[], []⟩ (.arr [Json.num 1])
    (fun (_ : List Nat) => some 5) [] [] ⟨[], []⟩ 5 rfl).2.2.1 rfl rfl

/-- Claim C10: on a durable-cache miss, the cache file is written only after
the wrapped operation returns normally — when the operation raises, no cache
file is created although the directory has been created, the error
propagates, and the next call invokes the operation again. -/
theorem dynamic_cache_no_write_when_operation_raises
    {α : Type}
    (tmpl : List TmplPiece) (fn : String) (attrs : Attrs) (d : String)
    (op : List Json → Option Json) (args a2 : List Json) (fs : FS)
    (pop : List α → Option α) (pargs pa2 : List α) (pfs : PFS α)
    (hd : formatTmpl tmpl attrs = some d)
    (hn : fs.read (d, fn ++ ".json") = none) (hop : op args = none)
    (pn : pfs.read (d, fn ++ ".pickle") = none) (hpop : pop pargs = none) :
    dynamicCacheToJson tmpl fn op attrs args fs = (.miss none, fs.mkdirs d) ∧
    (fs.mkdirs d).files = fs.files ∧
    (dynamicCacheToJson tmpl fn op attrs a2 (fs.mkdirs d)).1 = .miss (op a2) ∧
    dynamicCacheToPickle tmpl fn pop attrs pargs pfs = (.miss none, PFS.mkdirs pfs d) ∧
    (PFS.mkdirs pfs d).files = pfs.files ∧
    (dynamicCacheToPickle tmpl fn pop attrs pa2 (PFS.mkdirs pfs d)).1 = .miss (pop pa2) := by
  have hmem : d ∈ (fs.mkdirs d).dirs := FS.mem_dirs_mkdirs fs d
  have pmem : d ∈ (PFS.mkdirs pfs d).dirs := pfs_mem_dirs_mkdirs pfs d
  refine ⟨?_, FS.files_mkdirs fs d, ?_, ?_, pfs_files_mkdirs pfs d, ?_⟩
  · simp [dynamicCacheToJson, hd, FS.read_mkdirs, hn, hop]
  · cases h2 : op a2 with
    | none =>
      simp [dynamicCacheToJson, hd, FS.mkdirs_of_mem _ _ hmem, FS.read_mkdirs, hn, h2]
    | some r =>
      simp [dynamicCacheToJson, hd, FS.mkdirs_of_mem _ _ hmem, FS.read_mkdirs, hn, h2]
  · simp [dynamicCacheToPickle, hd, pfs_read_mkdirs, pn, hpop]
  · cases h2 : pop pa2 with
    | none =>
      simp [dynamicCacheToPickle, hd, pfs_mkdirs_of_mem _ _ pmem, pfs_read_mkdirs, pn, h2]
    | some r =>
      simp [dynamicCacheToPickle, hd, pfs_mkdirs_of_mem _ _ pmem, pfs_read_mkdirs, pn, h2]

theorem dynamic_cache_no_write_when_operation_raises_witness :
    dynamicCacheToJson [TmplPiece.hole "e"] "f" (fun _ => none) [("e", "x")] []
        (⟨[], []⟩ : FS) = (.miss none, (⟨[], []⟩ : FS).mkdirs "x") ∧
    ((⟨[], []⟩ : FS).mkdirs "x").files = (⟨[], []⟩ : FS).files ∧
    (dynamicCacheToJson [TmplPiece.hole "e"] "f" (fun _ => none) [("e", "x")] []
        ((⟨[], []⟩ : FS).mkdirs "x")).1 = .miss ((fun _ => none) ([] : List Json)) ∧
    dynamicCacheToPickle [TmplPiece.hole "e"] "f" (fun (_ : List Nat) => none) [("e", "x")] []
        (⟨[], []⟩ : PFS Nat) = (.miss none, PFS.mkdirs (⟨[], []⟩ : PFS Nat) "x") ∧
    (PFS.mkdirs (⟨[], []⟩ : PFS Nat) "x").files = (⟨[], []⟩ : PFS Nat).files ∧
    (dynamicCacheToPickle [TmplPiece.hole "e"] "f" (fun (_ : List Nat) => none) [("e", "x")] []
        (PFS.mkdirs (⟨[], []⟩ : PFS Nat) "x")).1 = .miss ((fun _ => none) ([] : List Nat)) :=
  dynamic_cache_no_write_when_operation_raises [TmplPiece.hole "e"] "f" [("e", "x")] "x"
    (fun _ => none) [] [] ⟨[], []⟩ (fun (_ : List Nat) => none) [] [] ⟨[], []⟩
    rfl rfl rfl rfl rfl

/-- Claim C9 (implicit): for the fixed-path caches `cache_to_json` and
`cache_to_pickle`, a stored None result is never served from the cache — a
loaded None is treated the same as an absent file, so when the wrapped
operation returns None every one of m successive calls invokes the operation
again and rewrites the file (invocation count m). -/
theorem fixed_path_cache_never_serves_none
    {β : Type} (path : FPath) (op : Nat → Json) (m k : Nat) (fs : FS)
    (pfs : PFS (Option β))
    (hop : ∀ j, op j = Json.null)
    (hfs : fs.read path = none ∨ fs.read path = some (printVal Json.null))
    (hpfs : pfs.read path = none ∨ pfs.read path = some none) :
    (∃ fs1, runCacheToJson path op m k fs = some (fs1, m)) ∧
    (runCacheToPickle path (fun _ => none) m k pfs).2 = m := by
  constructor
  · have step : ∀ j (g : FS),
        (g.read path = none ∨ g.read path = some (printVal Json.null)) →
        cacheToJson path op j g = some (op j, true, g.write path (printVal (op j))) := by
      intro j g hg
      rcases hg with h | h
      · simp [cacheToJson, h]
      · simp [cacheToJson, h, parseJson_printVal, Json.isNull]
    have main : ∀ (m2 k2 : Nat) (g : FS),
        (g.read path = none ∨ g.read path = some (printVal Json.null)) →
        ∃ fs1, runCacheToJson path op m2 k2 g = some (fs1, m2) := by
      intro m2
      induction m2 with
      | zero =>
        intro k2 g hg
        exact ⟨g, rfl⟩
      | succ m2 ih =>
        intro k2 g hg
        have hnext : (g.write path (printVal (op k2))).read path = none ∨
            (g.write path (printVal (op k2))).read path = some (printVal Json.null) := by
          right
          rw [hop k2]
          exact FS.read_write_self g path (printVal Json.null)
        obtain ⟨fs1, h1⟩ := ih (k2 + 1) (g.write path (printVal (op k2))) hnext
        refine ⟨fs1, ?_⟩
        rw [runCacheToJson.eq_def]
        simp [step k2 g hg, h1, Nat.add_comm]
    exact main m k fs hfs
  · have pstep : ∀ j (g : PFS (Option β)),
        (g.read path = none ∨ g.read path = some none) →
        cacheToPickle path (fun _ => none) j g = (none, true, PFS.write g path none) := by
      intro j g hg
      rcases hg with h | h
      · simp [cacheToPickle, h]
      · simp [cacheToPickle, h]
    have pmain : ∀ (m2 k2 : Nat) (g : PFS (Option β)),
        (g.read path = none ∨ g.read path = some none) →
        (runCacheToPickle path (fun _ => none) m2 k2 g).2 = m2 := by
      intro m2
      induction m2 with
      | zero =>
        intro k2 g hg
        rfl
      | succ m2 ih =>
        intro k2 g hg
        have hnext : (PFS.write g path none).read path = none ∨
            (PFS.write g path none).read path = some none :=
          Or.inr (pfs_read_write_self g path none)
        rw [runCacheToPickle.eq_def]
        simp [pstep k2 g hg, ih (k2 + 1) (PFS.write g path none) hnext, Nat.add_comm]
    exact pmain m k pfs hpfs

theorem fixed_path_cache_never_serves_none_witness :
    (∃ fs1, runCacheToJson ("d", "f") (fun _ => Json.null) 2 0 (⟨[], []⟩ : FS)
      = some (fs1, 2)) ∧
    (runCacheToPickle ("d", "f") (fun _ => (none : Option Nat)) 2 0
      (⟨[], []⟩ : PFS (Option Nat))).2 = 2 :=
  fixed_path_cache_never_serves_none ("d", "f") (fun _ => Json.null) 2 0 ⟨[], []⟩ ⟨[], []⟩
    (fun _ => rfl) (Or.inl rfl) (Or.inl rfl)

end Caching
